import Mathlib

/-
Verification development for the puzzle-tree custody architecture
(chia/wallet/puzzles/custody/custody_architecture.py).

The development shallowly embeds the Python source.  CLVM `Program` values
are modelled by the inductive `Clvm` (atoms are byte lists, pairs are cons
cells).  The spec treats low-level program serialization and sha256 hashing
as opaque primitives, so the model replaces sha256 by an injective,
length-growing stand-in (`hash_an_atom` / `hash_a_pair`) that preserves the
tree-hash algebra (atom tag 1, pair tag 2), and replaces the Python integer
atom encoding by a two's-complement style minimal byte encoding
(`intToAtom` / `atomToInt`).

Functions whose Python counterparts recurse by splitting a list in half are
given a `Nat` fuel argument (always instantiated with the list length) so
that every definition is structural and evaluates inside the kernel.
-/

inductive Clvm where
  | atom : List Nat → Clvm
  | pair : Clvm → Clvm → Clvm
deriving DecidableEq, Repr

/-- Build a proper CLVM list `(x1 x2 ... xn)` (nil terminated), as
`Program.to` does for Python lists. -/
def clvmList : List Clvm → Clvm
  | [] => .atom []
  | x :: xs => .pair x (clvmList xs)

/-- Big-endian base-256 digits of `n`, no leading zero bytes; fuel-based so
that the recursion is structural (`natToBytes` always supplies enough fuel). -/
def natToBytesAux : Nat → Nat → List Nat
  | 0, _ => []
  | fuel + 1, n => if n = 0 then [] else natToBytesAux fuel (n / 256) ++ [n % 256]

def natToBytes (n : Nat) : List Nat := natToBytesAux n n

def natFromBytes (bs : List Nat) : Nat := bs.foldl (fun acc b => 256 * acc + b) 0

/-- Pad with a zero sign byte when the encoding would look negative (or is
empty); used by the signed atom encoding below. -/
def signPad (bs : List Nat) : List Nat :=
  if bs = [] ∨ 128 ≤ bs.headD 0 then 0 :: bs else bs

/-- Modelled from the spec: integer-to-atom serialization is an opaque
primitive of the encoding layer (`Program.to` on Python ints).  Modelled as
the minimal big-endian two's-complement encoding: 0 is the empty atom, a
non-negative value gets a zero sign byte when its top byte is >= 128, and a
negative value -(n+1) is the bytewise complement of the sign-padded digits
of n. -/
def intToAtom : Int → List Nat
  | .ofNat n => if 128 ≤ (natToBytes n).headD 0 then 0 :: natToBytes n else natToBytes n
  | .negSucc n => (signPad (natToBytes n)).map (fun b => 255 - b)

/-- Modelled from the spec: inverse atom-to-integer primitive (`as_int`,
signed big-endian interpretation of the atom). -/
def atomToInt (bs : List Nat) : Int :=
  if 128 ≤ bs.headD 0 then .negSucc (natFromBytes (bs.map (fun b => 255 - b)))
  else .ofNat (natFromBytes bs)

/-- Modelled from the spec: the `hash a single value` primitive of the
ContentHasher (sha256 with leaf tag 1).  The model stand-in is injective and
length-prefixed instead of being a 32-byte digest. -/
def hash_an_atom (b : List Nat) : List Nat := 1 :: b.length :: b

/-- Modelled from the spec: the `hash a pair of hashes` primitive of the
ContentHasher (sha256 with pair tag 2). -/
def hash_a_pair (l r : List Nat) : List Nat := 2 :: l.length :: (l ++ r)

/-- CLVM tree hash of a program (atoms via `hash_an_atom`, pairs via
`hash_a_pair`), the model of `get_tree_hash`. -/
def treeHash : Clvm → List Nat
  | .atom b => hash_an_atom b
  | .pair l r => hash_a_pair (treeHash l) (treeHash r)

/-- The curried-argument chain `(c (q . a1) (c (q . a2) ... 1))` built by
`Program.curry`. -/
def curryArgs : List Clvm → Clvm
  | [] => .atom [1]
  | a :: as_ =>
    .pair (.atom [4]) (.pair (.pair (.atom [1]) a) (.pair (curryArgs as_) (.atom [])))

/-- `Program.curry`: `(a (q . mod) ARGS)`. -/
def curry (mod : Clvm) (args : List Clvm) : Clvm :=
  .pair (.atom [2]) (.pair (.pair (.atom [1]) mod) (.pair (curryArgs args) (.atom [])))

/-- Tree hash of a curried-argument chain, given the tree hashes of the
arguments (the `get_tree_hash_precalc` computation). -/
def curriedArgsHash : List (List Nat) → List Nat
  | [] => hash_an_atom [1]
  | h :: hs =>
    hash_a_pair (hash_an_atom [4])
      (hash_a_pair (hash_a_pair (hash_an_atom [1]) h)
        (hash_a_pair (curriedArgsHash hs) (hash_an_atom [])))

/-- Tree hash of `curry mod args`, given the tree hash of `mod` and of each
argument; this is how `puzzle_hash` computes hashes without puzzle reveals
(`get_tree_hash_precalc`). -/
def curryHash (modHash : List Nat) (argHashes : List (List Nat)) : List Nat :=
  hash_a_pair (hash_an_atom [2])
    (hash_a_pair (hash_a_pair (hash_an_atom [1]) modHash)
      (hash_a_pair (curriedArgsHash argHashes) (hash_an_atom [])))

/-- Tree hash of a proper CLVM list whose elements have the given tree
hashes (used for the curried lists of restriction hashes). -/
def hashOfHashList : List (List Nat) → List Nat
  | [] => hash_an_atom []
  | h :: hs => hash_a_pair h (hashOfHashList hs)

/-- `INDEX_WRAPPER = Program.to([2, 5, 7])`
(`(mod (INDEX INNER_PUZZLE . inner_solution) (a INNER_PUZZLE inner_solution))`). -/
def INDEX_WRAPPER : Clvm :=
  clvmList [.atom (intToAtom 2), .atom (intToAtom 5), .atom (intToAtom 7)]

def INDEX_WRAPPER_HASH : List Nat := treeHash INDEX_WRAPPER

/-- Modelled from the spec: `m_of_n.clsp` is an opaque precompiled template
consumed by this module; its compiled form is not part of the sources, so a
fixed stand-in atom represents it. -/
def MofN_MOD : Clvm := .atom [109, 95, 111, 102, 95, 110]

/-- Modelled from the spec: `1_of_n.clsp`, an opaque precompiled template
(stand-in atom). -/
def OneOfN_MOD : Clvm := .atom [49, 95, 111, 102, 95, 110]

/-- Modelled from the spec: `restrictions.clsp`, an opaque precompiled
template (stand-in atom). -/
def RESTRICTION_MOD : Clvm := .atom [114, 115, 116, 114]

def MofN_MOD_HASH : List Nat := treeHash MofN_MOD

def OneOfN_MOD_HASH : List Nat := treeHash OneOfN_MOD

def RESTRICTION_MOD_HASH : List Nat := treeHash RESTRICTION_MOD

/-- Hash of `INDEX_WRAPPER.curry(nonce, inner)` computed with the inner hash
precalculated (the final wrap of `PuzzleWithRestrictions.puzzle_hash`). -/
def indexWrapHash (nonce : Int) (inner : List Nat) : List Nat :=
  curryHash INDEX_WRAPPER_HASH [hash_an_atom (intToAtom nonce), inner]

/-- Hash of `RESTRICTION_MOD.curry(morpher_hashes, validator_hashes, inner)`
computed with all leaf hashes precalculated. -/
def restrictionWrapHash (morpher_hashes validator_hashes : List (List Nat))
    (inner : List Nat) : List Nat :=
  curryHash RESTRICTION_MOD_HASH
    [hashOfHashList morpher_hashes, hashOfHashList validator_hashes, inner]

/-- Modelled from the spec: `MerkleTree.split_list`, the fixed halving rule
shared by root computation and proof generation (first half takes the
ceiling). -/
def splitList (xs : List (List Nat)) : List (List Nat) × List (List Nat) :=
  (xs.take ((xs.length + 1) / 2), xs.drop ((xs.length + 1) / 2))

/-- Modelled from the spec: `MerkleTree.calculate_root` — recursively pair
the two halves of the leaf list; a single leaf hashes as an atom.  Fuel is
always the list length. -/
def merkleRootAux : Nat → List (List Nat) → List Nat
  | 0, _ => hash_an_atom []
  | _ + 1, [] => hash_an_atom []
  | _ + 1, [x] => hash_an_atom x
  | fuel + 1, x :: y :: rest =>
    hash_a_pair (merkleRootAux fuel (splitList (x :: y :: rest)).1)
      (merkleRootAux fuel (splitList (x :: y :: rest)).2)

def merkleRoot (nodes : List (List Nat)) : List Nat := merkleRootAux nodes.length nodes

structure ProvenSpend where
  puzzle_reveal : Clvm
  solution : Clvm
deriving DecidableEq, Repr

/-- The `spends_to_prove` dictionary, keyed by member puzzle hash. -/
abbrev SpendMap := List (List Nat × ProvenSpend)

/-- `MofNMerkleTree._m_of_n_proof` (fuel-based; fuel is the list length).
A proven leaf becomes `(() . (puzzle_reveal . solution))`, an unproven leaf
its atom hash, and an internal node collapses to the hash of the pair when
both halves collapsed. -/
def m_of_n_proofAux (spends_to_prove : SpendMap) : Nat → List (List Nat) → Clvm
  | 0, _ => .atom (hash_an_atom [])
  | _ + 1, [] => .atom (hash_an_atom [])
  | _ + 1, [x] =>
    match spends_to_prove.lookup x with
    | some sp => .pair (.atom []) (.pair sp.puzzle_reveal sp.solution)
    | none => .atom (hash_an_atom x)
  | fuel + 1, x :: y :: rest =>
    match m_of_n_proofAux spends_to_prove fuel (splitList (x :: y :: rest)).1,
          m_of_n_proofAux spends_to_prove fuel (splitList (x :: y :: rest)).2 with
    | .atom a, .atom b => .atom (hash_a_pair a b)
    | fp, rp => .pair fp rp

def m_of_n_proof (puzzle_hashes : List (List Nat)) (spends_to_prove : SpendMap) : Clvm :=
  m_of_n_proofAux spends_to_prove puzzle_hashes.length puzzle_hashes

/-- Modelled from the spec: `MerkleTree._proof`, the standard one-leaf
inclusion proof (path bits and sibling hash at each level); returns the
optional proof data together with the subtree hash.  Fuel is the list
length. -/
def merkleProofAux (target : List Nat) :
    Nat → List (List Nat) → Option (Nat × List (List Nat) × Nat) × List Nat
  | 0, _ => (none, hash_an_atom [])
  | _ + 1, [] => (none, hash_an_atom [])
  | _ + 1, [x] =>
    (if x = target then some (0, [], 0) else none, hash_an_atom x)
  | fuel + 1, x :: y :: rest =>
    let fr := merkleProofAux target fuel (splitList (x :: y :: rest)).1
    let rr := merkleProofAux target fuel (splitList (x :: y :: rest)).2
    match fr.1 with
    | some (p, l, b) => (some (p, l ++ [rr.2], b + 1), hash_a_pair fr.2 rr.2)
    | none =>
      match rr.1 with
      | some (p, l, b) => (some (p ||| (1 <<< b), l ++ [fr.2], b + 1), hash_a_pair fr.2 rr.2)
      | none => (none, hash_a_pair fr.2 rr.2)

structure PuzzleHint where
  puzhash : List Nat
  memo : Clvm
deriving DecidableEq, Repr

/-- `PuzzleHint.to_program`: `Program.to([puzhash, memo])`. -/
def PuzzleHint.to_program (h : PuzzleHint) : Clvm :=
  clvmList [.atom h.puzhash, h.memo]

/-- `PuzzleHint.from_program` (unpacking exactly two items; the hash must be
an atom). -/
def PuzzleHint.from_program : Clvm → Except String PuzzleHint
  | .pair (.atom puzhash) (.pair memo (.atom _)) => .ok ⟨puzhash, memo⟩
  | _ => .error "PuzzleHint bad shape"

structure RestrictionHint where
  morpher_not_validator : Bool
  puzhash : List Nat
  memo : Clvm
deriving DecidableEq, Repr

/-- `RestrictionHint.to_program`: `Program.to([flag, puzhash, memo])`
(Python `True` serializes as the int 1, `False` as nil). -/
def RestrictionHint.to_program (h : RestrictionHint) : Clvm :=
  clvmList [.atom (if h.morpher_not_validator then [1] else []), .atom h.puzhash, h.memo]

/-- `RestrictionHint.from_program`: the flag is true iff its program is not
nil. -/
def RestrictionHint.from_program : Clvm → Except String RestrictionHint
  | .pair mnv (.pair (.atom puzhash) (.pair memo (.atom _))) =>
    .ok ⟨decide (mnv ≠ Clvm.atom []), puzhash, memo⟩
  | _ => .error "RestrictionHint bad shape"

/-- `MofNHint.to_program`: `Program.to([m, member_memos])`. -/
def MofNHint.to_program (m : Int) (member_memos : List Clvm) : Clvm :=
  clvmList [.atom (intToAtom m), clvmList member_memos]

/-- An arbitrary concrete implementation of the `Puzzle` protocol (a Known
leaf): its three methods as functions of the nonce. -/
structure KnownPuzzle where
  memo : Int → Clvm
  puzzle : Int → Clvm
  puzzle_hash : Int → List Nat

/-- An arbitrary concrete implementation of the `Restriction` protocol
(a Known restriction leaf). -/
structure KnownRestriction where
  morpher_not_validator : Bool
  memo : Int → Clvm
  puzzle : Int → Clvm
  puzzle_hash : Int → List Nat

/-- A restriction slot: either a concrete driver or an `UnknownRestriction`
wrapping only a hint. -/
inductive Restriction where
  | unknown (hint : RestrictionHint) : Restriction
  | known (kr : KnownRestriction) : Restriction

def Restriction.morpher_not_validator : Restriction → Bool
  | .unknown h => h.morpher_not_validator
  | .known kr => kr.morpher_not_validator

def Restriction.memoAt (nonce : Int) : Restriction → Clvm
  | .unknown h => h.memo
  | .known kr => kr.memo nonce

/-- `puzzle(nonce)` of a restriction; an `UnknownRestriction` raises
`NotImplementedError`. -/
def Restriction.puzzleAt (nonce : Int) : Restriction → Except String Clvm
  | .unknown _ => .error "An unknown restriction type cannot generate a puzzle reveal"
  | .known kr => .ok (kr.puzzle nonce)

def Restriction.puzzle_hashAt (nonce : Int) : Restriction → List Nat
  | .unknown h => h.puzhash
  | .known kr => kr.puzzle_hash nonce

mutual
inductive Puzzle where
  | unknown (hint : PuzzleHint) : Puzzle
  | mofN (mofn : MofN) : Puzzle
  | known (kp : KnownPuzzle) : Puzzle

inductive MofN where
  | mk (m : Int) (members : PWRList) : MofN

inductive PWRList where
  | nil : PWRList
  | cons (head : PuzzleWithRestrictions) (tail : PWRList) : PWRList

inductive PuzzleWithRestrictions where
  | mk (nonce : Int) (restrictions : List Restriction) (puzzle : Puzzle) : PuzzleWithRestrictions
end

def PuzzleWithRestrictions.nonce : PuzzleWithRestrictions → Int
  | .mk n _ _ => n

def PuzzleWithRestrictions.restrictions : PuzzleWithRestrictions → List Restriction
  | .mk _ rs _ => rs

def PuzzleWithRestrictions.puzzle : PuzzleWithRestrictions → Puzzle
  | .mk _ _ p => p

def MofN.m : MofN → Int
  | .mk m _ => m

def MofN.members : MofN → PWRList
  | .mk _ ms => ms

def PWRList.length : PWRList → Nat
  | .nil => 0
  | .cons _ ps => PWRList.length ps + 1

/-- `MofN.n = len(self.members)`. -/
def MofN.n (M : MofN) : Nat := M.members.length

mutual
/-- `PuzzleWithRestrictions.puzzle_hash`: inner hash, wrapped by the
restriction layer when restrictions are present, always wrapped by the
index wrapper. -/
def PuzzleWithRestrictions.puzzle_hash : PuzzleWithRestrictions → List Nat
  | .mk nonce restrictions p =>
    let inner_puzzle_hash := Puzzle.puzzle_hashAt nonce p
    indexWrapHash nonce
      (if restrictions.length > 0 then
        restrictionWrapHash
          ((restrictions.filter (fun r => r.morpher_not_validator)).map
            (Restriction.puzzle_hashAt nonce))
          ((restrictions.filter (fun r => !r.morpher_not_validator)).map
            (Restriction.puzzle_hashAt nonce))
          inner_puzzle_hash
      else inner_puzzle_hash)

/-- `puzzle_hash(nonce)` of the inner puzzle slot. -/
def Puzzle.puzzle_hashAt (nonce : Int) : Puzzle → List Nat
  | .unknown h => h.puzhash
  | .known kp => kp.puzzle_hash nonce
  | .mofN M => MofN.puzzle_hashAt nonce M

/-- `MofN.puzzle_hash`: tree hash of `MofN_MOD.curry(m, root)` for `m > 1`,
of `OneOfN_MOD.curry(root)` otherwise (the nonce is unused by the source). -/
def MofN.puzzle_hashAt (_nonce : Int) : MofN → List Nat
  | .mk m members =>
    if 1 < m then
      curryHash MofN_MOD_HASH
        [hash_an_atom (intToAtom m), hash_an_atom (merkleRoot (PWRList.hashes members))]
    else
      curryHash OneOfN_MOD_HASH [hash_an_atom (merkleRoot (PWRList.hashes members))]

/-- `[member.puzzle_hash() for member in members]`. -/
def PWRList.hashes : PWRList → List (List Nat)
  | .nil => []
  | .cons p ps => p.puzzle_hash :: PWRList.hashes ps
end

/-- The leaf list of the `MofN` Merkle tree (`MofN._merkle_tree.nodes`). -/
def MofN.nodes : MofN → List (List Nat)
  | .mk _ members => PWRList.hashes members

/-- `MofN.__post_init__`: reject duplicate member puzzle hashes
(`len(list(set(nodes))) != len(nodes)`). -/
def MofN.post_init (M : MofN) : Except String Unit :=
  if M.nodes.dedup.length ≠ M.nodes.length then
    .error "Duplicate nodes not currently supported by MofN drivers"
  else .ok ()

/-- `MofN.generate_proof`.  The length assertion is the `InvalidProofSize`
failure; for `m > 1` the partial-reveal proof is produced, otherwise the
single-path flattened form `[(path, siblings), puzzle_reveal, solution]`
(`list(keys)[0]` on an empty dict is Python's IndexError). -/
def MofN.generate_proof (M : MofN) (spends_to_prove : SpendMap) : Except String Clvm :=
  if (spends_to_prove.length : Int) ≠ M.m then
    .error "Must prove as many spends as the M value"
  else if 1 < M.m then .ok (m_of_n_proof M.nodes spends_to_prove)
  else
    match spends_to_prove with
    | [] => .error "list index out of range"
    | (only_key, proven_spend) :: _ =>
      match (merkleProofAux only_key M.nodes.length M.nodes).1 with
      | some (p, sibs, _) =>
        .ok (clvmList [.pair (.atom (intToAtom (Int.ofNat p))) (clvmList (sibs.map Clvm.atom)),
          proven_spend.puzzle_reveal, proven_spend.solution])
      | none =>
        .ok (clvmList [.pair (.atom []) (.atom []),
          proven_spend.puzzle_reveal, proven_spend.solution])

/-- `MofN.puzzle(nonce)`: the actual curried program reveal. -/
def MofN.puzzleAt (_nonce : Int) (M : MofN) : Clvm :=
  if 1 < M.m then
    curry MofN_MOD [.atom (intToAtom M.m), .atom (merkleRoot M.nodes)]
  else
    curry OneOfN_MOD [.atom (merkleRoot M.nodes)]

/-- `puzzle(nonce)` of the inner puzzle slot; an `UnknownPuzzle` raises
`NotImplementedError`. -/
def Puzzle.puzzleAt (nonce : Int) : Puzzle → Except String Clvm
  | .unknown _ => .error "An unknown puzzle type cannot generate a puzzle reveal"
  | .known kp => .ok (kp.puzzle nonce)
  | .mofN M => .ok (MofN.puzzleAt nonce M)

/-- `memo(nonce)` of the inner puzzle slot; `MofN.memo` raises
`NotImplementedError` (the node handles MofN memos itself). -/
def Puzzle.memoAt (nonce : Int) : Puzzle → Except String Clvm
  | .unknown h => .ok h.memo
  | .known kp => .ok (kp.memo nonce)
  | .mofN _ => .error "PuzzleWithRestrictions handles MofN memos, this method should not be called"

/-- The namespace marker `"inner_puzzle_chip?"` as UTF-8 bytes. -/
def specNamespace : List Nat :=
  [105, 110, 110, 101, 114, 95, 112, 117, 122, 122, 108, 101, 95, 99, 104, 105, 112, 63]

/-- The common memo layout: the namespace tag over
`(nonce, [restriction_hints], is_mofn_flag, puzzle_or_mofn_hint)`. -/
def memoBody (nonce : Int) (restrictions : List Restriction) (flag : List Nat)
    (hint : Clvm) : Clvm :=
  .pair (.atom specNamespace)
    (clvmList
      [.atom (intToAtom nonce),
       clvmList (restrictions.map (fun r =>
         RestrictionHint.to_program
           ⟨r.morpher_not_validator, Restriction.puzzle_hashAt nonce r,
            Restriction.memoAt nonce r⟩)),
       .atom flag, hint])

mutual
/-- `PuzzleWithRestrictions.memo`: the inner-puzzle kind is dispatched as in
the source's `isinstance(self.puzzle, MofN)` test — an `MofN` stores flag 1
and a recursive `MofNHint`, anything else stores flag 0 and a `PuzzleHint`
of its hash and memo. -/
def PuzzleWithRestrictions.memo : PuzzleWithRestrictions → Clvm
  | .mk nonce restrictions (.unknown h) =>
    memoBody nonce restrictions (intToAtom 0) (PuzzleHint.to_program ⟨h.puzhash, h.memo⟩)
  | .mk nonce restrictions (.known kp) =>
    memoBody nonce restrictions (intToAtom 0)
      (PuzzleHint.to_program ⟨kp.puzzle_hash nonce, kp.memo nonce⟩)
  | .mk nonce restrictions (.mofN (.mk m members)) =>
    memoBody nonce restrictions (intToAtom 1) (MofNHint.to_program m (PWRList.memos members))

def PWRList.memos : PWRList → List Clvm
  | .nil => []
  | .cons p ps => p.memo :: PWRList.memos ps
end

/-- Parse the list of restriction hints of a memo. -/
def parseRestrictionHints : Clvm → Except String (List RestrictionHint)
  | .atom _ => .ok []
  | .pair hd tl =>
    match RestrictionHint.from_program hd, parseRestrictionHints tl with
    | .ok h, .ok hs => .ok (h :: hs)
    | .error e, _ => .error e
    | _, .error e => .error e

mutual
/-- `PuzzleWithRestrictions.from_memo`: always reconstructs Unknown leaves;
an `MofN` inner puzzle is rebuilt recursively (running the duplicate-member
construction check). -/
def PuzzleWithRestrictions.from_memo : Clvm → Except String PuzzleWithRestrictions
  | .atom _ => .error "Attempting to parse a memo that does not belong to this spec"
  | .pair ns rest =>
    if ns = Clvm.atom specNamespace then
      match rest with
      | .pair nonceP (.pair hintsP (.pair flagP (.pair puzP (.atom _)))) =>
        match nonceP with
        | .pair _ _ => .error "as_int requires an atom"
        | .atom nonceA =>
          match parseRestrictionHints hintsP with
          | .error e => .error e
          | .ok hints =>
            if flagP = Clvm.atom [] then
              match PuzzleHint.from_program puzP with
              | .error e => .error e
              | .ok ph =>
                .ok (.mk (atomToInt nonceA) (hints.map Restriction.unknown) (.unknown ph))
            else
              match puzP with
              | .pair mP (.pair memosP (.atom _)) =>
                match mP with
                | .pair _ _ => .error "as_int requires an atom"
                | .atom mA =>
                  match PuzzleWithRestrictions.from_memoList memosP with
                  | .error e => .error e
                  | .ok members =>
                    match MofN.post_init (.mk (atomToInt mA) members) with
                    | .error e => .error e
                    | .ok _ =>
                      .ok (.mk (atomToInt nonceA) (hints.map Restriction.unknown)
                        (.mofN (.mk (atomToInt mA) members)))
              | _ => .error "MofNHint bad shape"
      | _ => .error "memo body bad shape"
    else .error "Attempting to parse a memo that does not belong to this spec"

def PuzzleWithRestrictions.from_memoList : Clvm → Except String PWRList
  | .atom _ => .ok .nil
  | .pair hd tl =>
    match PuzzleWithRestrictions.from_memo hd with
    | .error e => .error e
    | .ok p =>
      match PuzzleWithRestrictions.from_memoList tl with
      | .error e => .error e
      | .ok ps => .ok (.cons p ps)
end

/-- A value of the fill-in registry (`Mapping[bytes32, Puzzle]`).  The
Python dict is untyped and an entry is used either as a restriction or as an
inner puzzle depending on the slot whose hash matched; the model tags each
entry with the protocol it implements (an ill-kinded entry, whose later use
would raise in Python, substitutes nothing here). -/
inductive RegEntry where
  | restriction (r : Restriction) : RegEntry
  | puzzle (p : Puzzle) : RegEntry

abbrev Registry := List (List Nat × RegEntry)

/-- One iteration of the restriction loop of `fill_in_unknown_puzzles`: an
`UnknownRestriction` whose hash is a registry key is replaced by the
registry's restriction entry, anything else is kept. -/
def fillRestrictionSlot (R : Registry) (r : Restriction) : Restriction :=
  match r with
  | .unknown hint =>
    match R.lookup hint.puzhash with
    | some (.restriction new) => new
    | _ => r
  | .known _ => r

mutual
/-- `PuzzleWithRestrictions.fill_in_unknown_puzzles`: structural copy
replacing Unknown leaves whose hash is a registry key; an `MofN` inner
puzzle is rebuilt with `dataclasses.replace`, which re-runs the
duplicate-member construction check. -/
def PuzzleWithRestrictions.fill_in_unknown_puzzles (R : Registry) :
    PuzzleWithRestrictions → Except String PuzzleWithRestrictions
  | .mk nonce restrictions p =>
    match Puzzle.fill_in R p with
    | .error e => .error e
    | .ok p2 => .ok (.mk nonce (restrictions.map (fillRestrictionSlot R)) p2)

def Puzzle.fill_in (R : Registry) : Puzzle → Except String Puzzle
  | .unknown hint =>
    (match R.lookup hint.puzhash with
    | some (.puzzle new) => .ok new
    | _ => .ok (.unknown hint))
  | .mofN (.mk m members) =>
    match PWRList.fill_in R members with
    | .error e => .error e
    | .ok members2 =>
      match MofN.post_init (.mk m members2) with
      | .error e => .error e
      | .ok _ => .ok (.mofN (.mk m members2))
  | .known kp => .ok (.known kp)

def PWRList.fill_in (R : Registry) : PWRList → Except String PWRList
  | .nil => .ok .nil
  | .cons p ps =>
    match PuzzleWithRestrictions.fill_in_unknown_puzzles R p with
    | .error e => .error e
    | .ok p2 =>
      match PWRList.fill_in R ps with
      | .error e => .error e
      | .ok ps2 => .ok (.cons p2 ps2)
end

mutual
/-- No `UnknownPuzzle` / `UnknownRestriction` leaf anywhere in the tree. -/
def PuzzleWithRestrictions.allKnownB : PuzzleWithRestrictions → Bool
  | .mk _ restrictions p =>
    restrictions.all (fun r => match r with | .known _ => true | .unknown _ => false)
      && Puzzle.allKnownB p

def Puzzle.allKnownB : Puzzle → Bool
  | .unknown _ => false
  | .known _ => true
  | .mofN (.mk _ members) => PWRList.allKnownB members

def PWRList.allKnownB : PWRList → Bool
  | .nil => true
  | .cons p ps => p.allKnownB && PWRList.allKnownB ps
end

mutual
/-- Every leaf of the tree is an `UnknownPuzzle` / `UnknownRestriction`. -/
def PuzzleWithRestrictions.allUnknownB : PuzzleWithRestrictions → Bool
  | .mk _ restrictions p =>
    restrictions.all (fun r => match r with | .known _ => false | .unknown _ => true)
      && Puzzle.allUnknownB p

def Puzzle.allUnknownB : Puzzle → Bool
  | .unknown _ => true
  | .known _ => false
  | .mofN (.mk _ members) => PWRList.allUnknownB members

def PWRList.allUnknownB : PWRList → Bool
  | .nil => true
  | .cons p ps => p.allUnknownB && PWRList.allUnknownB ps
end

mutual
/-- The construction invariant every Python-built tree satisfies: each
`MofN` node passed its duplicate-member check. -/
def PuzzleWithRestrictions.wfB : PuzzleWithRestrictions → Bool
  | .mk _ _ p => Puzzle.wfB p

def Puzzle.wfB : Puzzle → Bool
  | .unknown _ => true
  | .known _ => true
  | .mofN (.mk _ members) =>
    decide ((PWRList.hashes members).dedup.length = (PWRList.hashes members).length)
      && PWRList.wfB members

def PWRList.wfB : PWRList → Bool
  | .nil => true
  | .cons p ps => p.wfB && PWRList.wfB ps
end

/-- The hint-only image of a restriction at a given nonce (what `memo()`
records and `from_memo` reconstructs). -/
def Restriction.unknownify (nonce : Int) (r : Restriction) : Restriction :=
  .unknown ⟨r.morpher_not_validator, Restriction.puzzle_hashAt nonce r, Restriction.memoAt nonce r⟩

mutual
/-- The hint-only image of a tree: every leaf replaced by the Unknown leaf
carrying its hash and memo.  `from_memo (memo t)` returns exactly this. -/
def PuzzleWithRestrictions.unknownify : PuzzleWithRestrictions → PuzzleWithRestrictions
  | .mk nonce restrictions p =>
    .mk nonce (restrictions.map (Restriction.unknownify nonce)) (Puzzle.unknownifyAt nonce p)

def Puzzle.unknownifyAt (nonce : Int) : Puzzle → Puzzle
  | .unknown h => .unknown h
  | .known kp => .unknown ⟨kp.puzzle_hash nonce, kp.memo nonce⟩
  | .mofN (.mk m members) => .mofN (.mk m (PWRList.unknownify members))

def PWRList.unknownify : PWRList → PWRList
  | .nil => .nil
  | .cons p ps => .cons p.unknownify (PWRList.unknownify ps)
end

/-- The proof shape stated by the spec for the partial-reveal proof, written
from the spec's wording: a proven single leaf is a reveal node
`(() . (reveal . solution))`, an unproven single leaf is its atom hash, an
internal node whose halves both collapsed collapses to the hash of the
pair, and otherwise stays a pair of the two child results. -/
inductive SpecProofShape (spends : SpendMap) : List (List Nat) → Clvm → Prop where
  | reveal_leaf (x : List Nat) (sp : ProvenSpend) (h : spends.lookup x = some sp) :
      SpecProofShape spends [x] (.pair (.atom []) (.pair sp.puzzle_reveal sp.solution))
  | hash_leaf (x : List Nat) (h : spends.lookup x = none) :
      SpecProofShape spends [x] (.atom (hash_an_atom x))
  | collapse (xs : List (List Nat)) (a b : List Nat) (hlen : 2 ≤ xs.length)
      (hf : SpecProofShape spends (splitList xs).1 (.atom a))
      (hr : SpecProofShape spends (splitList xs).2 (.atom b)) :
      SpecProofShape spends xs (.atom (hash_a_pair a b))
  | branch (xs : List (List Nat)) (fp rp : Clvm) (hlen : 2 ≤ xs.length)
      (hf : SpecProofShape spends (splitList xs).1 fp)
      (hr : SpecProofShape spends (splitList xs).2 rp)
      (hpair : (∃ u v, fp = .pair u v) ∨ (∃ u v, rp = .pair u v)) :
      SpecProofShape spends xs (.pair fp rp)

/-- All `(puzzle_reveal, solution)` pairs revealed anywhere in a proof
structure (reveal nodes are `(() . (reveal . solution))`; plain hash atoms
reveal nothing). -/
def revealsIn : Clvm → List (Clvm × Clvm)
  | .atom _ => []
  | .pair (.atom []) (.pair r s) => [(r, s)]
  | .pair (.atom []) (.atom _) => []
  | .pair (.atom (_ :: _)) c => revealsIn c
  | .pair (.pair a b) c => revealsIn (.pair a b) ++ revealsIn c

/-- The two-element proof shape `[(path, reveal), solution]` claimed by the
spec for the `m == 1` case: a list of exactly two elements whose first is a
pair ending in the puzzle reveal and whose second is the solution. -/
def twoElemProofShapeB (r reveal solution : Clvm) : Bool :=
  match r with
  | .pair (.pair _ rv) (.pair s (.atom [])) => rv == reveal && s == solution
  | _ => false

def resultHasTwoElemShape (res : Except String Clvm) (reveal solution : Clvm) : Bool :=
  match res with
  | .ok r => twoElemProofShapeB r reveal solution
  | .error _ => false

/-- One restriction slot after fill-in, per the spec: unchanged, or the
registry's restriction entry for the slot's Unknown hash. -/
def restrictionFrame (R : Registry) (r r2 : Restriction) : Prop :=
  r2 = r ∨ ∃ hint, r = .unknown hint ∧ R.lookup hint.puzhash = some (.restriction r2)

mutual
/-- The frame property of `fill_in_unknown_puzzles`, written from the spec:
nonce preserved, restrictions positionally unchanged-or-registry-filled,
Known leaves untouched, `MofN` recursed with `m` preserved. -/
def PuzzleWithRestrictions.frameOK (R : Registry) :
    PuzzleWithRestrictions → PuzzleWithRestrictions → Prop
  | .mk nonce restrictions p, t2 =>
    t2.nonce = nonce ∧ List.Forall₂ (restrictionFrame R) restrictions t2.restrictions ∧
      Puzzle.frameOK R nonce p t2.puzzle

def Puzzle.frameOK (R : Registry) (nonce : Int) : Puzzle → Puzzle → Prop
  | .known kp, p2 => p2 = .known kp
  | .unknown hint, p2 => p2 = .unknown hint ∨ R.lookup hint.puzhash = some (.puzzle p2)
  | .mofN (.mk m members), p2 =>
    ∃ members2, p2 = .mofN (.mk m members2) ∧ PWRList.frameOK R members members2

def PWRList.frameOK (R : Registry) : PWRList → PWRList → Prop
  | .nil, l => l = .nil
  | .cons p ps, l =>
    ∃ p2 ps2, l = .cons p2 ps2 ∧ PuzzleWithRestrictions.frameOK R p p2 ∧ PWRList.frameOK R ps ps2
end

def RegEntry.allKnownB : RegEntry → Bool
  | .restriction (.known _) => true
  | .restriction (.unknown _) => false
  | .puzzle p => p.allKnownB

def RegEntry.wfB : RegEntry → Bool
  | .restriction _ => true
  | .puzzle p => p.wfB

/-- Every registry value is a fully-Known, construction-valid driver. -/
def registryAllKnownWf (R : Registry) : Bool :=
  R.all (fun e => e.2.allKnownB && e.2.wfB)

instance {ε α : Type} [DecidableEq ε] [DecidableEq α] : DecidableEq (Except ε α) := fun a b =>
  match a, b with
  | .ok x, .ok y => if h : x = y then .isTrue (by rw [h]) else .isFalse (by simp [h])
  | .error x, .error y => if h : x = y then .isTrue (by rw [h]) else .isFalse (by simp [h])
  | .ok _, .error _ => .isFalse (by simp)
  | .error _, .ok _ => .isFalse (by simp)

/-- Concrete member with a short unknown-hint hash, for witnesses. -/
def memberA : PuzzleWithRestrictions := .mk 0 [] (.unknown ⟨[10], .atom []⟩)

def memberB : PuzzleWithRestrictions := .mk 0 [] (.unknown ⟨[11], .atom []⟩)

def memberC : PuzzleWithRestrictions := .mk 0 [] (.unknown ⟨[12], .atom []⟩)

def spendA : ProvenSpend := ⟨.atom [65], .atom [1]⟩

def spendB : ProvenSpend := ⟨.atom [66], .atom [2]⟩

/-- A 2-of-3 threshold over members A, B, C. -/
def exMofN2 : MofN := .mk 2 (.cons memberA (.cons memberB (.cons memberC .nil)))

/-- Spends proving members A and B of `exMofN2`. -/
def exSpends2 : SpendMap := [(memberA.puzzle_hash, spendA), (memberB.puzzle_hash, spendB)]

/-- A 1-of-2 threshold over members A, B. -/
def exMofN1 : MofN := .mk 1 (.cons memberA (.cons memberB .nil))

def exSpends1 : SpendMap := [(memberA.puzzle_hash, spendA)]

/-- A (degenerate) 0-of-1 threshold. -/
def exMofN0 : MofN := .mk 0 (.cons memberA .nil)

/-- Tree with a single Unknown inner puzzle of hash `[1]`. -/
def cT7 : PuzzleWithRestrictions := .mk 0 [] (.unknown ⟨[1], .atom []⟩)

/-- Registry whose entry for `[1]` is itself an Unknown leaf with hash `[2]`,
which is again a registry key. -/
def cR7 : Registry :=
  [([1], .puzzle (.unknown ⟨[2], .atom []⟩)), ([2], .puzzle (.unknown ⟨[3], .atom []⟩))]

def cT7a : PuzzleWithRestrictions := .mk 0 [] (.unknown ⟨[2], .atom []⟩)

def cT7b : PuzzleWithRestrictions := .mk 0 [] (.unknown ⟨[3], .atom []⟩)

def wKnownPuzzle : KnownPuzzle := ⟨fun _ => Clvm.atom [], fun _ => Clvm.atom [3], fun _ => [42]⟩

def wT7 : PuzzleWithRestrictions := .mk 0 [] (.unknown ⟨[5], .atom []⟩)

def wR7 : Registry := [([5], .puzzle (.known wKnownPuzzle))]

def wT7r : PuzzleWithRestrictions := .mk 0 [] (.known wKnownPuzzle)

def wKP1 : KnownPuzzle := ⟨fun _ => Clvm.atom [], fun _ => Clvm.atom [3], fun _ => [21]⟩

def wKP2 : KnownPuzzle := ⟨fun _ => Clvm.atom [], fun _ => Clvm.atom [3], fun _ => [22]⟩

def wKR : KnownRestriction := ⟨true, fun _ => Clvm.atom [], fun _ => Clvm.atom [3], fun _ => [23]⟩

/-- An all-Known tree with a nested 2-of-2 threshold, for the C1 witness. -/
def wTree1 : PuzzleWithRestrictions :=
  .mk 1 [.known wKR]
    (.mofN (.mk 2 (.cons (.mk 0 [] (.known wKP1)) (.cons (.mk 0 [] (.known wKP2)) .nil))))

def wKP3 : KnownPuzzle := ⟨fun _ => Clvm.atom [], fun _ => Clvm.atom [], fun _ => [33]⟩

/-- Zero-restriction tree with nonce 7 and a Known inner puzzle. -/
def wT3 : PuzzleWithRestrictions := .mk 7 [] (.known wKP3)

theorem natFromBytes_append (bs : List Nat) (b : Nat) :
    natFromBytes (bs ++ [b]) = 256 * natFromBytes bs + b := by
  simp [natFromBytes, List.foldl_append]

theorem natFromBytes_cons_zero (bs : List Nat) : natFromBytes (0 :: bs) = natFromBytes bs := by
  simp [natFromBytes]

theorem natFromBytes_toBytesAux :
    ∀ fuel n, n ≤ fuel → natFromBytes (natToBytesAux fuel n) = n := by
  intro fuel
  induction fuel with
  | zero =>
    intro n h
    have : n = 0 := by omega
    subst this
    rfl
  | succ fuel ih =>
    intro n h
    by_cases h0 : n = 0
    · subst h0; rfl
    · have hdiv : n / 256 < n := Nat.div_lt_self (by omega) (by omega)
      rw [natToBytesAux, if_neg h0, natFromBytes_append, ih (n / 256) (by omega)]
      omega

theorem natToBytesAux_lt : ∀ fuel n, ∀ b ∈ natToBytesAux fuel n, b < 256 := by
  intro fuel
  induction fuel with
  | zero => intro n b hb; simp [natToBytesAux] at hb
  | succ fuel ih =>
    intro n b hb
    rw [natToBytesAux] at hb
    by_cases h0 : n = 0
    · simp [h0] at hb
    · rw [if_neg h0] at hb
      rcases List.mem_append.1 hb with h | h
      · exact ih _ b h
      · simp at h
        subst h
        exact Nat.mod_lt _ (by omega)

theorem natFromBytes_signPad (bs : List Nat) : natFromBytes (signPad bs) = natFromBytes bs := by
  rw [signPad]
  split
  · exact natFromBytes_cons_zero bs
  · rfl

theorem map_compl_compl (bs : List Nat) (h : ∀ b ∈ bs, b ≤ 255) :
    (bs.map (fun b => 255 - b)).map (fun b => 255 - b) = bs := by
  induction bs with
  | nil => rfl
  | cons b tl ih =>
    simp only [List.map_cons, List.cons.injEq]
    constructor
    · have := h b (by simp); omega
    · exact ih (fun x hx => h x (by simp [hx]))

theorem atomToInt_intToAtom : ∀ i : Int, atomToInt (intToAtom i) = i := by
  intro i
  match i with
  | .ofNat n =>
    rw [intToAtom]
    by_cases hp : 128 ≤ (natToBytes n).headD 0
    · rw [if_pos hp, atomToInt]
      simp only [List.headD_cons]
      rw [if_neg (by omega), natFromBytes_cons_zero, natToBytes,
        natFromBytes_toBytesAux n n le_rfl]
    · rw [if_neg hp, atomToInt, if_neg hp, natToBytes, natFromBytes_toBytesAux n n le_rfl]
  | .negSucc n =>
    rw [intToAtom]
    have hbound : ∀ b ∈ signPad (natToBytes n), b ≤ 255 := by
      intro b hb
      rw [signPad] at hb
      split at hb
      · rcases List.mem_cons.1 hb with h | h
        · omega
        · have := natToBytesAux_lt n n b h; omega
      · have := natToBytesAux_lt n n b hb; omega
    have hhead : 128 ≤ (((signPad (natToBytes n)).map (fun b => 255 - b)).headD 0) := by
      rw [signPad]
      by_cases hc : natToBytes n = [] ∨ 128 ≤ (natToBytes n).headD 0
      · rw [if_pos hc]
        simp
      · rw [if_neg hc]
        push_neg at hc
        obtain ⟨hne, hlt⟩ := hc
        match hbs : natToBytes n with
        | [] => exact absurd hbs hne
        | b :: tl =>
          rw [hbs] at hlt
          simp only [List.headD_cons] at hlt
          simp only [List.map_cons, List.headD_cons]
          omega
    rw [atomToInt, if_pos hhead, map_compl_compl _ hbound, natFromBytes_signPad, natToBytes,
      natFromBytes_toBytesAux n n le_rfl]

theorem intToAtom_zero : intToAtom 0 = [] := rfl

theorem intToAtom_one : intToAtom 1 = [1] := rfl

/-- Round-trip of a restriction hint through its program encoding. -/
theorem restrictionHint_roundtrip (h : RestrictionHint) :
    RestrictionHint.from_program (RestrictionHint.to_program h) = .ok h := by
  obtain ⟨mnv, puzhash, memo⟩ := h
  cases mnv <;> rfl

theorem puzzleHint_roundtrip (h : PuzzleHint) :
    PuzzleHint.from_program (PuzzleHint.to_program h) = .ok h := rfl

/-- C10: for every `RestrictionHint` (any morpher flag, hash, memo),
`from_program (to_program h) = h`; in particular the morpher/validator
boolean survives the encoding where `False` is serialized as nil. -/
theorem c10_restriction_hint_roundtrip (h : RestrictionHint) :
    RestrictionHint.from_program (RestrictionHint.to_program h) = .ok h :=
  restrictionHint_roundtrip h

/-- C8: on `UnknownPuzzle` and `UnknownRestriction` leaves, `puzzle(nonce)`
fails (`NotImplementedError`, the spec's `UnsupportedOperation`), while
`memo(nonce)` and `puzzle_hash(nonce)` succeed and return the stored hint's
memo and hash. -/
theorem c8_unknown_leaf_operations (ph : PuzzleHint) (rh : RestrictionHint) (nonce : Int) :
    Puzzle.puzzleAt nonce (.unknown ph)
        = .error "An unknown puzzle type cannot generate a puzzle reveal" ∧
    Puzzle.memoAt nonce (.unknown ph) = .ok ph.memo ∧
    Puzzle.puzzle_hashAt nonce (.unknown ph) = ph.puzhash ∧
    Restriction.puzzleAt nonce (.unknown rh)
        = .error "An unknown restriction type cannot generate a puzzle reveal" ∧
    Restriction.memoAt nonce (.unknown rh) = rh.memo ∧
    Restriction.puzzle_hashAt nonce (.unknown rh) = rh.puzhash :=
  ⟨rfl, rfl, rfl, rfl, rfl, rfl⟩

theorem dedup_length_iff_nodup (l : List (List Nat)) :
    l.dedup.length = l.length ↔ l.Nodup := by
  constructor
  · intro h
    rw [← List.dedup_eq_self]
    exact l.dedup_sublist.eq_of_length h
  · intro h
    rw [List.dedup_eq_self.2 h]

/-- C6: constructing an `MofN` with two members of identical puzzle hash
fails the construction check (`DuplicateMember`); construction succeeds
exactly when all member puzzle hashes are pairwise distinct. -/
theorem c6_duplicate_member_check (M : MofN) :
    MofN.post_init M = .ok () ↔ List.Pairwise (fun a b => a ≠ b) M.nodes := by
  have hb := dedup_length_iff_nodup M.nodes
  rw [MofN.post_init]
  by_cases hd : M.nodes.dedup.length ≠ M.nodes.length
  · rw [if_pos hd]
    constructor
    · intro h; exact absurd h (by simp)
    · intro h; exact absurd (hb.2 h) hd
  · rw [if_neg hd]
    push_neg at hd
    exact ⟨fun _ => hb.1 hd, fun _ => rfl⟩

/-- C6 witness: a 2-of-3 with pairwise distinct member hashes constructs. -/
theorem c6_witness : MofN.post_init exMofN2 = .ok () :=
  (c6_duplicate_member_check exMofN2).2 (by decide)

/-- C3: with an empty restrictions list, `puzzle_hash` is exactly the
index-wrapped inner hash (the restriction layer is skipped), and differs
from the hash that an empty-but-present restriction-layer wrap would give. -/
theorem c3_zero_restriction_hash (t : PuzzleWithRestrictions) (h : t.restrictions = []) :
    t.puzzle_hash = indexWrapHash t.nonce (Puzzle.puzzle_hashAt t.nonce t.puzzle) ∧
    t.puzzle_hash ≠ indexWrapHash t.nonce
      (restrictionWrapHash [] [] (Puzzle.puzzle_hashAt t.nonce t.puzzle)) := by
  obtain ⟨n, rs, p⟩ := t
  simp only [PuzzleWithRestrictions.restrictions] at h
  subst h
  constructor
  · rfl
  · intro hEq
    have hLen := congrArg List.length hEq
    simp only [PuzzleWithRestrictions.puzzle_hash, PuzzleWithRestrictions.nonce,
      PuzzleWithRestrictions.puzzle, List.length_nil, gt_iff_lt, Nat.lt_irrefl, if_false,
      indexWrapHash, restrictionWrapHash, curryHash, curriedArgsHash, hashOfHashList,
      hash_a_pair, hash_an_atom, List.length_cons, List.length_append] at hLen
    omega

/-- C3 witness: nonce 7, Known inner puzzle `wKP3`. -/
theorem c3_witness :
    wT3.puzzle_hash = indexWrapHash wT3.nonce (Puzzle.puzzle_hashAt wT3.nonce wT3.puzzle) ∧
    wT3.puzzle_hash ≠ indexWrapHash wT3.nonce
      (restrictionWrapHash [] [] (Puzzle.puzzle_hashAt wT3.nonce wT3.puzzle)) :=
  c3_zero_restriction_hash wT3 rfl

/-- C5 counterexample: for `m = 0` and the empty proven set the size check
passes (`0 = m`) yet `generate_proof` still fails — with Python's IndexError
from `list(keys)[0]`, not the proof-size error — so it does not "otherwise
proceed to produce a proof". -/
theorem c5_counterexample :
    (([] : SpendMap).length : Int) = exMofN0.m ∧
    MofN.generate_proof exMofN0 [] = .error "list index out of range" := ⟨rfl, rfl⟩

/-- C5 amended: `generate_proof` fails with the proof-size error exactly
when the number of proven spends differs from `m`; when the sizes match and
additionally `m >= 1`, it produces a proof (for `m = 0` the empty proven
set instead hits an index error — see the counterexample). -/
theorem c5_proof_size_check (M : MofN) (spends : SpendMap) :
    (MofN.generate_proof M spends = .error "Must prove as many spends as the M value"
      ↔ (spends.length : Int) ≠ M.m) ∧
    ((spends.length : Int) = M.m → 1 ≤ M.m →
      ∃ pr, MofN.generate_proof M spends = .ok pr) := by
  constructor
  · constructor
    · intro h
      by_contra hlen
      rw [MofN.generate_proof.eq_def, if_neg (by omega)] at h
      by_cases h1 : 1 < M.m
      · rw [if_pos h1] at h
        exact absurd h (by simp)
      · rw [if_neg h1] at h
        cases spends with
        | nil => dsimp only at h; exact absurd h (by decide)
        | cons e rest =>
          obtain ⟨k, sp⟩ := e
          dsimp only at h
          rcases hpf : (merkleProofAux k M.nodes.length M.nodes).1 with _ | ⟨p, l, b⟩ <;>
            rw [hpf] at h <;> exact absurd h (by simp)
    · intro hne
      rw [MofN.generate_proof.eq_def, if_pos hne]
  · intro hlen hm
    rw [MofN.generate_proof.eq_def, if_neg (by omega)]
    by_cases h1 : 1 < M.m
    · rw [if_pos h1]
      exact ⟨_, rfl⟩
    · rw [if_neg h1]
      cases spends with
      | nil => simp at hlen; omega
      | cons e rest =>
        obtain ⟨k, sp⟩ := e
        dsimp only
        rcases hpf : (merkleProofAux k M.nodes.length M.nodes).1 with _ | ⟨p, l, b⟩ <;>
          exact ⟨_, rfl⟩

/-- C5 witness: a matching proven-set size with `m = 2 >= 1` produces a
proof. -/
theorem c5_witness : ∃ pr, MofN.generate_proof exMofN2 exSpends2 = .ok pr :=
  (c5_proof_size_check exMofN2 exSpends2).2 (by decide) (by decide)

theorem splitList_lengths (xs : List (List Nat)) (h : 2 ≤ xs.length) :
    1 ≤ (splitList xs).1.length ∧ (splitList xs).1.length < xs.length ∧
    1 ≤ (splitList xs).2.length ∧ (splitList xs).2.length < xs.length := by
  simp only [splitList, List.length_take, List.length_drop]
  omega

theorem m_of_n_proofAux_not_nil (spends : SpendMap) :
    ∀ fuel xs, xs ≠ [] → xs.length ≤ fuel →
      m_of_n_proofAux spends fuel xs ≠ .atom [] := by
  intro fuel
  induction fuel with
  | zero => intro xs hne hlen; exact absurd (List.length_eq_zero.1 (by omega)) hne
  | succ fuel _ =>
    intro xs hne hlen
    match xs with
    | [] => exact absurd rfl hne
    | [x] =>
      simp only [m_of_n_proofAux]
      cases h : spends.lookup x with
      | some sp => simp
      | none => simp [hash_an_atom]
    | x :: y :: rest =>
      simp only [m_of_n_proofAux]
      cases hf : m_of_n_proofAux spends fuel (splitList (x :: y :: rest)).1 <;>
        cases hr : m_of_n_proofAux spends fuel (splitList (x :: y :: rest)).2 <;>
          simp [hash_a_pair]

theorem m_of_n_proofAux_shape (spends : SpendMap) :
    ∀ fuel xs, xs ≠ [] → xs.length ≤ fuel →
      SpecProofShape spends xs (m_of_n_proofAux spends fuel xs) := by
  intro fuel
  induction fuel with
  | zero => intro xs hne hlen; exact absurd (List.length_eq_zero.1 (by omega)) hne
  | succ fuel ih =>
    intro xs hne hlen
    match xs with
    | [] => exact absurd rfl hne
    | [x] =>
      simp only [m_of_n_proofAux]
      cases h : spends.lookup x with
      | some sp => exact SpecProofShape.reveal_leaf x sp h
      | none => exact SpecProofShape.hash_leaf x h
    | x :: y :: rest =>
      have h2 : 2 ≤ (x :: y :: rest).length := by simp
      have hs := splitList_lengths (x :: y :: rest) h2
      have hlen2 : (x :: y :: rest).length ≤ fuel + 1 := hlen
      have ihf := ih (splitList (x :: y :: rest)).1
        (List.length_pos.1 (by omega)) (by omega)
      have ihr := ih (splitList (x :: y :: rest)).2
        (List.length_pos.1 (by omega)) (by omega)
      simp only [m_of_n_proofAux]
      cases hf : m_of_n_proofAux spends fuel (splitList (x :: y :: rest)).1 with
      | atom a =>
        cases hr : m_of_n_proofAux spends fuel (splitList (x :: y :: rest)).2 with
        | atom b =>
          rw [hf] at ihf; rw [hr] at ihr
          exact SpecProofShape.collapse _ a b h2 ihf ihr
        | pair u v =>
          rw [hf] at ihf; rw [hr] at ihr
          exact SpecProofShape.branch _ _ _ h2 ihf ihr (Or.inr ⟨u, v, rfl⟩)
      | pair u v =>
        cases hr : m_of_n_proofAux spends fuel (splitList (x :: y :: rest)).2 with
        | atom b =>
          rw [hf] at ihf; rw [hr] at ihr
          exact SpecProofShape.branch _ _ _ h2 ihf ihr (Or.inl ⟨u, v, rfl⟩)
        | pair w z =>
          rw [hf] at ihf; rw [hr] at ihr
          exact SpecProofShape.branch _ _ _ h2 ihf ihr (Or.inl ⟨u, v, rfl⟩)

theorem m_of_n_proofAux_reveals (spends : SpendMap) :
    ∀ fuel xs, xs ≠ [] → xs.length ≤ fuel →
      ∀ pr ∈ revealsIn (m_of_n_proofAux spends fuel xs),
        ∃ k sp, spends.lookup k = some sp ∧ pr = (sp.puzzle_reveal, sp.solution) := by
  intro fuel
  induction fuel with
  | zero => intro xs hne hlen; exact absurd (List.length_eq_zero.1 (by omega)) hne
  | succ fuel ih =>
    intro xs hne hlen
    match xs with
    | [] => exact absurd rfl hne
    | [x] =>
      simp only [m_of_n_proofAux]
      cases h : spends.lookup x with
      | some sp =>
        intro pr hpr
        simp only [revealsIn, List.mem_singleton] at hpr
        exact ⟨x, sp, h, hpr⟩
      | none => intro pr hpr; simp [revealsIn] at hpr
    | x :: y :: rest =>
      have h2 : 2 ≤ (x :: y :: rest).length := by simp
      have hs := splitList_lengths (x :: y :: rest) h2
      have hlen2 : (x :: y :: rest).length ≤ fuel + 1 := hlen
      have hne1 : (splitList (x :: y :: rest)).1 ≠ [] := List.length_pos.1 (by omega)
      have hne2 : (splitList (x :: y :: rest)).2 ≠ [] := List.length_pos.1 (by omega)
      have hl1 : (splitList (x :: y :: rest)).1.length ≤ fuel := by omega
      have hl2 : (splitList (x :: y :: rest)).2.length ≤ fuel := by omega
      simp only [m_of_n_proofAux]
      cases hf : m_of_n_proofAux spends fuel (splitList (x :: y :: rest)).1 with
      | atom a =>
        have ha : a ≠ [] := by
          have := m_of_n_proofAux_not_nil spends fuel _ hne1 hl1
          rw [hf] at this
          simpa using this
        cases hr : m_of_n_proofAux spends fuel (splitList (x :: y :: rest)).2 with
        | atom b => intro pr hpr; simp [revealsIn] at hpr
        | pair u v =>
          cases a with
          | nil => exact absurd rfl ha
          | cons c cs =>
            intro pr hpr
            simp only [revealsIn] at hpr
            exact ih _ hne2 hl2 pr (hr ▸ hpr)
      | pair u v =>
        cases hr : m_of_n_proofAux spends fuel (splitList (x :: y :: rest)).2 with
        | atom b =>
          intro pr hpr
          simp only [revealsIn, List.mem_append, List.not_mem_nil, or_false] at hpr
          exact ih _ hne1 hl1 pr (hf ▸ hpr)
        | pair w z =>
          intro pr hpr
          simp only [revealsIn, List.mem_append] at hpr
          rcases hpr with hpr | hpr
          · exact ih _ hne1 hl1 pr (hf ▸ hpr)
          · exact ih _ hne2 hl2 pr (hr ▸ hpr)

/-- C2: for `m > 1` with exactly `m` proven spends keyed by member hashes,
`generate_proof` returns the partial-reveal structure, which satisfies the
spec's recursive shape (reveal pair / plain hash atom / collapsed pair hash
/ pair of children), and every reveal occurring anywhere in it is one of
the requested spends — no unchosen member's reveal or solution appears. -/
theorem c2_partial_reveal_shape (M : MofN) (spends : SpendMap)
    (hm : 1 < M.m) (hlen : (spends.length : Int) = M.m)
    (hkeys : ∀ k ∈ spends.map Prod.fst, k ∈ M.nodes) :
    MofN.generate_proof M spends = .ok (m_of_n_proof M.nodes spends) ∧
    SpecProofShape spends M.nodes (m_of_n_proof M.nodes spends) ∧
    ∀ pr ∈ revealsIn (m_of_n_proof M.nodes spends),
      ∃ k sp, spends.lookup k = some sp ∧ pr = (sp.puzzle_reveal, sp.solution) := by
  have hne : M.nodes ≠ [] := by
    cases spends with
    | nil => simp at hlen; omega
    | cons e rest =>
      have hmem : e.1 ∈ M.nodes := hkeys e.1 (by simp)
      intro hnil
      rw [hnil] at hmem
      simp at hmem
  refine ⟨?_, ?_, ?_⟩
  · rw [MofN.generate_proof.eq_def, if_neg (by omega), if_pos hm]
  · exact m_of_n_proofAux_shape spends _ _ hne le_rfl
  · exact m_of_n_proofAux_reveals spends _ _ hne le_rfl

/-- C2 witness: 2-of-3 over [A, B, C] proving A and B; additionally the
un-revealed branch for C is exactly the atom `hash_an_atom C.puzzle_hash`. -/
theorem c2_witness :
    (MofN.generate_proof exMofN2 exSpends2 = .ok (m_of_n_proof exMofN2.nodes exSpends2) ∧
      SpecProofShape exSpends2 exMofN2.nodes (m_of_n_proof exMofN2.nodes exSpends2) ∧
      ∀ pr ∈ revealsIn (m_of_n_proof exMofN2.nodes exSpends2),
        ∃ k sp, exSpends2.lookup k = some sp ∧ pr = (sp.puzzle_reveal, sp.solution)) ∧
    m_of_n_proof exMofN2.nodes exSpends2 =
      .pair (.pair (.pair (.atom []) (.pair spendA.puzzle_reveal spendA.solution))
                   (.pair (.atom []) (.pair spendB.puzzle_reveal spendB.solution)))
            (.atom (hash_an_atom memberC.puzzle_hash)) :=
  ⟨c2_partial_reveal_shape exMofN2 exSpends2 (by decide) (by decide) (by decide), by decide⟩

theorem merkleProofAux_found (target : List Nat) :
    ∀ fuel xs, xs.length ≤ fuel → target ∈ xs →
      (merkleProofAux target fuel xs).1.isSome = true := by
  intro fuel
  induction fuel with
  | zero =>
    intro xs hlen hmem
    have hx : xs = [] := List.length_eq_zero.1 (by omega)
    subst hx
    simp at hmem
  | succ fuel ih =>
    intro xs hlen hmem
    match xs with
    | [] => simp at hmem
    | [x] =>
      simp only [List.mem_singleton] at hmem
      subst hmem
      simp [merkleProofAux]
    | x :: y :: rest =>
      have h2 : 2 ≤ (x :: y :: rest).length := by simp
      have hs := splitList_lengths (x :: y :: rest) h2
      have hlen2 : (x :: y :: rest).length ≤ fuel + 1 := hlen
      have hcover : target ∈ (splitList (x :: y :: rest)).1 ∨
          target ∈ (splitList (x :: y :: rest)).2 := by
        rw [splitList]
        have := List.take_append_drop (((x :: y :: rest).length + 1) / 2) (x :: y :: rest)
        rw [← List.mem_append]
        rw [this]
        exact hmem
      simp only [merkleProofAux]
      cases hf : (merkleProofAux target fuel (splitList (x :: y :: rest)).1).1 with
      | some pr => obtain ⟨p, l, b⟩ := pr; simp
      | none =>
        have hmr : target ∈ (splitList (x :: y :: rest)).2 := by
          rcases hcover with hc | hc
          · have := ih (splitList (x :: y :: rest)).1 (by omega) hc
            rw [hf] at this
            simp at this
          · exact hc
        have hr := ih (splitList (x :: y :: rest)).2 (by omega) hmr
        cases hrr : (merkleProofAux target fuel (splitList (x :: y :: rest)).2).1 with
        | none => rw [hrr] at hr; simp at hr
        | some pr => obtain ⟨p, l, b⟩ := pr; simp [hf, hrr]

/-- C4 amended: for `m = 1` with a singleton proven map keyed by a member
hash, `generate_proof` returns the flattened THREE-element structure
`[(path, siblings), puzzle_reveal, solution]` — the puzzle reveal is a
separate list element, not inside the pair, and the pair holds the path and
sibling hashes of the one-leaf Merkle proof. -/
theorem c4_one_of_n_proof_shape (M : MofN) (k : List Nat) (sp : ProvenSpend)
    (hm : M.m = 1) (hk : k ∈ M.nodes) :
    ∃ p sibs b, (merkleProofAux k M.nodes.length M.nodes).1 = some (p, sibs, b) ∧
      MofN.generate_proof M [(k, sp)] =
        .ok (clvmList [.pair (.atom (intToAtom (Int.ofNat p))) (clvmList (sibs.map Clvm.atom)),
          sp.puzzle_reveal, sp.solution]) := by
  have hfound := merkleProofAux_found k M.nodes.length M.nodes le_rfl hk
  obtain ⟨⟨p, sibs, b⟩, hpr⟩ := Option.isSome_iff_exists.1 hfound
  refine ⟨p, sibs, b, hpr, ?_⟩
  rw [MofN.generate_proof.eq_def, if_neg (by simp [hm]), if_neg (by simp [hm])]
  dsimp only
  rw [hpr]

/-- C4 counterexample: 1-of-2 proving member A.  `generate_proof` succeeds,
but its result is not the claimed two-element `[(path, reveal), solution]`
shape (the reveal is the second of three list elements, not inside the
pair). -/
theorem c4_counterexample :
    (MofN.generate_proof exMofN1 exSpends1).isOk = true ∧
    resultHasTwoElemShape (MofN.generate_proof exMofN1 exSpends1)
      spendA.puzzle_reveal spendA.solution = false := by
  constructor
  · decide
  · decide

/-- C4 witness: the amended three-element shape at the concrete 1-of-2. -/
theorem c4_witness :
    ∃ p sibs b,
      (merkleProofAux memberA.puzzle_hash exMofN1.nodes.length exMofN1.nodes).1
        = some (p, sibs, b) ∧
      MofN.generate_proof exMofN1 [(memberA.puzzle_hash, spendA)] =
        .ok (clvmList [.pair (.atom (intToAtom (Int.ofNat p))) (clvmList (sibs.map Clvm.atom)),
          spendA.puzzle_reveal, spendA.solution]) :=
  c4_one_of_n_proof_shape exMofN1 memberA.puzzle_hash spendA rfl (by decide)

theorem restrictions_map_frame (R : Registry) (rs : List Restriction) :
    List.Forall₂ (restrictionFrame R) rs (rs.map (fillRestrictionSlot R)) := by
  induction rs with
  | nil => exact .nil
  | cons r rs ih =>
    refine List.Forall₂.cons ?_ ih
    cases r with
    | known kr => exact Or.inl rfl
    | unknown hint =>
      rw [fillRestrictionSlot]
      cases hl : R.lookup hint.puzhash with
      | none => exact Or.inl rfl
      | some e =>
        cases e with
        | restriction nr => exact Or.inr ⟨hint, rfl, hl⟩
        | puzzle pz => exact Or.inl rfl

mutual
theorem fill_frame_pwr (R : Registry) :
    ∀ t t2, PuzzleWithRestrictions.fill_in_unknown_puzzles R t = .ok t2 →
      PuzzleWithRestrictions.frameOK R t t2
  | .mk nonce rs p, t2, h => by
    rw [PuzzleWithRestrictions.fill_in_unknown_puzzles] at h
    cases hp : Puzzle.fill_in R p with
    | error e => rw [hp] at h; exact absurd h (by simp)
    | ok p2 =>
      rw [hp] at h
      simp only [Except.ok.injEq] at h
      subst h
      exact ⟨rfl, restrictions_map_frame R rs, fill_frame_puzzle R nonce p p2 hp⟩

theorem fill_frame_puzzle (R : Registry) (nonce : Int) :
    ∀ p p2, Puzzle.fill_in R p = .ok p2 → Puzzle.frameOK R nonce p p2
  | .unknown hint, p2, h => by
    rw [Puzzle.fill_in] at h
    cases hl : R.lookup hint.puzhash with
    | none =>
      rw [hl] at h
      simp only [Except.ok.injEq] at h
      subst h
      exact Or.inl rfl
    | some e =>
      cases e with
      | restriction nr =>
        rw [hl] at h
        simp only [Except.ok.injEq] at h
        subst h
        exact Or.inl rfl
      | puzzle pz =>
        rw [hl] at h
        simp only [Except.ok.injEq] at h
        subst h
        exact Or.inr hl
  | .known kp, p2, h => by
    rw [Puzzle.fill_in] at h
    simp only [Except.ok.injEq] at h
    subst h
    rfl
  | .mofN (.mk m members), p2, h => by
    rw [Puzzle.fill_in] at h
    cases hms : PWRList.fill_in R members with
    | error e => rw [hms] at h; exact absurd h (by simp)
    | ok members2 =>
      rw [hms] at h
      dsimp only at h
      cases hpi : MofN.post_init (.mk m members2) with
      | error e => rw [hpi] at h; exact absurd h (by simp)
      | ok u =>
        rw [hpi] at h
        simp only [Except.ok.injEq] at h
        subst h
        exact ⟨members2, rfl, fill_frame_list R members members2 hms⟩

theorem fill_frame_list (R : Registry) :
    ∀ l l2, PWRList.fill_in R l = .ok l2 → PWRList.frameOK R l l2
  | .nil, l2, h => by
    rw [PWRList.fill_in] at h
    simp only [Except.ok.injEq] at h
    subst h
    rfl
  | .cons p ps, l2, h => by
    rw [PWRList.fill_in] at h
    cases hp : PuzzleWithRestrictions.fill_in_unknown_puzzles R p with
    | error e => rw [hp] at h; exact absurd h (by simp)
    | ok p2 =>
      rw [hp] at h
      cases hps : PWRList.fill_in R ps with
      | error e => rw [hps] at h; exact absurd h (by simp)
      | ok ps2 =>
        rw [hps] at h
        simp only [Except.ok.injEq] at h
        subst h
        exact ⟨p2, ps2, rfl, fill_frame_pwr R p p2 hp, fill_frame_list R ps ps2 hps⟩
end

/-- C9: a successful `fill_in_unknown_puzzles` preserves the nonce, maps the
restriction list positionally (each slot unchanged or replaced by the
registry entry for its Unknown hash), leaves every Known leaf unchanged,
and rebuilds `MofN` nodes recursively with `m` preserved. -/
theorem c9_fill_in_frame (R : Registry) (t t2 : PuzzleWithRestrictions)
    (h : PuzzleWithRestrictions.fill_in_unknown_puzzles R t = .ok t2) :
    PuzzleWithRestrictions.frameOK R t t2 :=
  fill_frame_pwr R t t2 h

/-- C9 witness: the frame property at a concrete fill. -/
theorem c9_witness : PuzzleWithRestrictions.frameOK cR7 cT7 cT7a :=
  c9_fill_in_frame cR7 cT7 cT7a rfl

theorem registry_entry_known :
    ∀ (R : Registry) (key : List Nat) (e : RegEntry),
      registryAllKnownWf R = true → R.lookup key = some e →
      e.allKnownB = true ∧ e.wfB = true
  | [], key, e, _, h => by simp [List.lookup] at h
  | (k2, v) :: rest, key, e, hR, h => by
    rw [registryAllKnownWf, List.all_cons, Bool.and_eq_true] at hR
    rw [List.lookup] at h
    cases hk : (key == k2) with
    | false =>
      rw [hk] at h
      exact registry_entry_known rest key e hR.2 h
    | true =>
      rw [hk] at h
      simp only [Option.some.injEq] at h
      subst h
      simpa [Bool.and_eq_true] using hR.1

theorem fillRestrictionSlot_idem (R : Registry) (hR : registryAllKnownWf R = true)
    (r : Restriction) :
    fillRestrictionSlot R (fillRestrictionSlot R r) = fillRestrictionSlot R r := by
  cases r with
  | known kr => rfl
  | unknown hint =>
    rw [fillRestrictionSlot]
    cases hl : R.lookup hint.puzhash with
    | none => rw [fillRestrictionSlot, hl]
    | some e =>
      cases e with
      | puzzle pz => rw [fillRestrictionSlot, hl]
      | restriction nr =>
        have hkn := (registry_entry_known R hint.puzhash _ hR hl).1
        cases nr with
        | known kr2 => rfl
        | unknown h2 => simp [RegEntry.allKnownB] at hkn

theorem map_fillRestrictionSlot_idem (R : Registry) (hR : registryAllKnownWf R = true)
    (rs : List Restriction) :
    (rs.map (fillRestrictionSlot R)).map (fillRestrictionSlot R)
      = rs.map (fillRestrictionSlot R) := by
  rw [List.map_map]
  exact List.map_congr_left (fun r _ => fillRestrictionSlot_idem R hR r)

theorem fillRestrictionSlot_known (R : Registry) (r : Restriction)
    (h : (match r with | .known _ => true | .unknown _ => false) = true) :
    fillRestrictionSlot R r = r := by
  cases r with
  | known kr => rfl
  | unknown hint => simp at h

theorem map_fillRestrictionSlot_known (R : Registry) (rs : List Restriction)
    (h : rs.all (fun r => match r with | .known _ => true | .unknown _ => false) = true) :
    rs.map (fillRestrictionSlot R) = rs := by
  induction rs with
  | nil => rfl
  | cons r rs ih =>
    rw [List.all_cons, Bool.and_eq_true] at h
    rw [List.map_cons, fillRestrictionSlot_known R r h.1, ih h.2]

mutual
theorem fill_fix_pwr (R : Registry) :
    ∀ t, PuzzleWithRestrictions.allKnownB t = true → PuzzleWithRestrictions.wfB t = true →
      PuzzleWithRestrictions.fill_in_unknown_puzzles R t = .ok t
  | .mk nonce rs p, hk, hw => by
    rw [PuzzleWithRestrictions.allKnownB, Bool.and_eq_true] at hk
    rw [PuzzleWithRestrictions.wfB] at hw
    rw [PuzzleWithRestrictions.fill_in_unknown_puzzles, fill_fix_puzzle R p hk.2 hw]
    dsimp only
    rw [map_fillRestrictionSlot_known R rs hk.1]

theorem fill_fix_puzzle (R : Registry) :
    ∀ p, Puzzle.allKnownB p = true → Puzzle.wfB p = true → Puzzle.fill_in R p = .ok p
  | .known kp, _, _ => rfl
  | .unknown hint, hk, _ => by
    rw [Puzzle.allKnownB] at hk
    exact absurd hk (by simp)
  | .mofN (.mk m members), hk, hw => by
    rw [Puzzle.allKnownB] at hk
    rw [Puzzle.wfB, Bool.and_eq_true] at hw
    have hnd := of_decide_eq_true hw.1
    rw [Puzzle.fill_in, fill_fix_list R members hk hw.2]
    dsimp only
    rw [MofN.post_init, if_neg (by simp [MofN.nodes, hnd])]

theorem fill_fix_list (R : Registry) :
    ∀ l, PWRList.allKnownB l = true → PWRList.wfB l = true → PWRList.fill_in R l = .ok l
  | .nil, _, _ => rfl
  | .cons p ps, hk, hw => by
    rw [PWRList.allKnownB, Bool.and_eq_true] at hk
    rw [PWRList.wfB, Bool.and_eq_true] at hw
    rw [PWRList.fill_in, fill_fix_pwr R p hk.1 hw.1]
    dsimp only
    rw [fill_fix_list R ps hk.2 hw.2]
end

mutual
theorem fill_idem_pwr (R : Registry) (hR : registryAllKnownWf R = true) :
    ∀ t t2, PuzzleWithRestrictions.fill_in_unknown_puzzles R t = .ok t2 →
      PuzzleWithRestrictions.fill_in_unknown_puzzles R t2 = .ok t2
  | .mk nonce rs p, t2, h => by
    rw [PuzzleWithRestrictions.fill_in_unknown_puzzles] at h
    cases hp : Puzzle.fill_in R p with
    | error e => rw [hp] at h; exact absurd h (by simp)
    | ok p2 =>
      rw [hp] at h
      simp only [Except.ok.injEq] at h
      subst h
      rw [PuzzleWithRestrictions.fill_in_unknown_puzzles, fill_idem_puzzle R hR p p2 hp]
      dsimp only
      rw [map_fillRestrictionSlot_idem R hR rs]

theorem fill_idem_puzzle (R : Registry) (hR : registryAllKnownWf R = true) :
    ∀ p p2, Puzzle.fill_in R p = .ok p2 → Puzzle.fill_in R p2 = .ok p2
  | .unknown hint, p2, h => by
    rw [Puzzle.fill_in] at h
    cases hl : R.lookup hint.puzhash with
    | none =>
      rw [hl] at h
      simp only [Except.ok.injEq] at h
      subst h
      rw [Puzzle.fill_in, hl]
    | some e =>
      cases e with
      | restriction nr =>
        rw [hl] at h
        simp only [Except.ok.injEq] at h
        subst h
        rw [Puzzle.fill_in, hl]
      | puzzle pz =>
        rw [hl] at h
        simp only [Except.ok.injEq] at h
        subst h
        have hke := registry_entry_known R hint.puzhash _ hR hl
        exact fill_fix_puzzle R _ (by simpa [RegEntry.allKnownB] using hke.1)
          (by simpa [RegEntry.wfB] using hke.2)
  | .known kp, p2, h => by
    rw [Puzzle.fill_in] at h
    simp only [Except.ok.injEq] at h
    subst h
    rfl
  | .mofN (.mk m members), p2, h => by
    rw [Puzzle.fill_in] at h
    cases hms : PWRList.fill_in R members with
    | error e => rw [hms] at h; exact absurd h (by simp)
    | ok members2 =>
      rw [hms] at h
      dsimp only at h
      cases hpi : MofN.post_init (.mk m members2) with
      | error e => rw [hpi] at h; exact absurd h (by simp)
      | ok u =>
        rw [hpi] at h
        simp only [Except.ok.injEq] at h
        subst h
        rw [Puzzle.fill_in, fill_idem_list R hR members members2 hms]
        dsimp only
        rw [hpi]

theorem fill_idem_list (R : Registry) (hR : registryAllKnownWf R = true) :
    ∀ l l2, PWRList.fill_in R l = .ok l2 → PWRList.fill_in R l2 = .ok l2
  | .nil, l2, h => by
    rw [PWRList.fill_in] at h
    simp only [Except.ok.injEq] at h
    subst h
    rfl
  | .cons p ps, l2, h => by
    rw [PWRList.fill_in] at h
    cases hp : PuzzleWithRestrictions.fill_in_unknown_puzzles R p with
    | error e => rw [hp] at h; exact absurd h (by simp)
    | ok p2 =>
      rw [hp] at h
      cases hps : PWRList.fill_in R ps with
      | error e => rw [hps] at h; exact absurd h (by simp)
      | ok ps2 =>
        rw [hps] at h
        simp only [Except.ok.injEq] at h
        subst h
        rw [PWRList.fill_in, fill_idem_pwr R hR p p2 hp]
        dsimp only
        rw [fill_idem_list R hR ps ps2 hps]
end

/-- C7 counterexample: with a registry whose entry for the Unknown hash
`[1]` is itself an Unknown leaf of hash `[2]` (also a registry key), the
first fill yields the `[2]` leaf and the second fill replaces it again, so
the commitment hashes of the once- and twice-filled trees differ. -/
theorem c7_counterexample :
    PuzzleWithRestrictions.fill_in_unknown_puzzles cR7 cT7 = .ok cT7a ∧
    PuzzleWithRestrictions.fill_in_unknown_puzzles cR7 cT7a = .ok cT7b ∧
    cT7a.puzzle_hash ≠ cT7b.puzzle_hash := ⟨rfl, rfl, by decide⟩

/-- C7 amended: fill-in is idempotent whenever every registry value is a
fully-Known, construction-valid driver (no registry value is itself an
Unknown leaf, and registry `MofN` values pass their duplicate-member
check): if `fill_in_unknown_puzzles` returns `t1`, applying it to `t1`
returns `t1` unchanged. -/
theorem c7_fill_in_idempotent (R : Registry) (t t1 : PuzzleWithRestrictions)
    (hR : registryAllKnownWf R = true)
    (h : PuzzleWithRestrictions.fill_in_unknown_puzzles R t = .ok t1) :
    PuzzleWithRestrictions.fill_in_unknown_puzzles R t1 = .ok t1 :=
  fill_idem_pwr R hR t t1 h

/-- C7 witness: idempotence at a concrete fill with an all-Known registry. -/
theorem c7_witness : PuzzleWithRestrictions.fill_in_unknown_puzzles wR7 wT7r = .ok wT7r :=
  c7_fill_in_idempotent wR7 wT7 wT7r rfl rfl

theorem unknownify_restriction_hash (nonce : Int) (r : Restriction) :
    Restriction.puzzle_hashAt nonce (Restriction.unknownify nonce r)
      = Restriction.puzzle_hashAt nonce r := rfl

theorem filter_map_unknownify (nonce : Int) (rs : List Restriction) (f : Restriction → Bool)
    (hf : ∀ r, f (Restriction.unknownify nonce r) = f r) :
    ((rs.map (Restriction.unknownify nonce)).filter f).map (Restriction.puzzle_hashAt nonce)
      = (rs.filter f).map (Restriction.puzzle_hashAt nonce) := by
  induction rs with
  | nil => rfl
  | cons r rs ih =>
    simp only [List.map_cons, List.filter_cons, hf r]
    cases hfr : f r with
    | false => simpa using ih
    | true => simp only [if_pos, List.map_cons, unknownify_restriction_hash, ih]

mutual
theorem unknownify_hash_pwr :
    ∀ t : PuzzleWithRestrictions,
      (PuzzleWithRestrictions.unknownify t).puzzle_hash = t.puzzle_hash
  | .mk nonce rs p => by
    simp only [PuzzleWithRestrictions.unknownify, PuzzleWithRestrictions.puzzle_hash,
      List.length_map]
    rw [unknownify_hash_puzzle nonce p]
    by_cases hlen : rs.length > 0
    · rw [if_pos hlen, if_pos hlen,
        filter_map_unknownify nonce rs (fun r => r.morpher_not_validator) (fun r => rfl),
        filter_map_unknownify nonce rs (fun r => !r.morpher_not_validator) (fun r => rfl)]
    · rw [if_neg hlen, if_neg hlen]

theorem unknownify_hash_puzzle :
    ∀ (nonce : Int) (p : Puzzle),
      Puzzle.puzzle_hashAt nonce (Puzzle.unknownifyAt nonce p) = Puzzle.puzzle_hashAt nonce p
  | _, .unknown h => rfl
  | _, .known kp => rfl
  | nonce, .mofN (.mk m members) => by
    simp only [Puzzle.unknownifyAt, Puzzle.puzzle_hashAt, MofN.puzzle_hashAt]
    rw [unknownify_hashes_list members]

theorem unknownify_hashes_list :
    ∀ l : PWRList, PWRList.hashes (PWRList.unknownify l) = PWRList.hashes l
  | .nil => rfl
  | .cons p ps => by
    simp only [PWRList.unknownify, PWRList.hashes]
    rw [unknownify_hash_pwr p, unknownify_hashes_list ps]
end

mutual
theorem unknownify_allUnknown_pwr :
    ∀ t : PuzzleWithRestrictions, (PuzzleWithRestrictions.unknownify t).allUnknownB = true
  | .mk nonce rs p => by
    simp only [PuzzleWithRestrictions.unknownify, PuzzleWithRestrictions.allUnknownB,
      Bool.and_eq_true]
    refine ⟨?_, unknownify_allUnknown_puzzle nonce p⟩
    rw [List.all_eq_true]
    intro r hr
    rw [List.mem_map] at hr
    obtain ⟨r0, _, hre⟩ := hr
    subst hre
    rfl

theorem unknownify_allUnknown_puzzle :
    ∀ (nonce : Int) (p : Puzzle), (Puzzle.unknownifyAt nonce p).allUnknownB = true
  | _, .unknown h => rfl
  | _, .known kp => rfl
  | nonce, .mofN (.mk m members) => by
    simp only [Puzzle.unknownifyAt, Puzzle.allUnknownB]
    exact unknownify_allUnknown_list members

theorem unknownify_allUnknown_list :
    ∀ l : PWRList, (PWRList.unknownify l).allUnknownB = true
  | .nil => rfl
  | .cons p ps => by
    simp only [PWRList.unknownify, PWRList.allUnknownB, Bool.and_eq_true]
    exact ⟨unknownify_allUnknown_pwr p, unknownify_allUnknown_list ps⟩
end

theorem parseRestrictionHints_roundtrip (nonce : Int) (rs : List Restriction) :
    parseRestrictionHints (clvmList (rs.map (fun r =>
      RestrictionHint.to_program
        ⟨r.morpher_not_validator, Restriction.puzzle_hashAt nonce r,
         Restriction.memoAt nonce r⟩)))
    = .ok (rs.map (fun r =>
      (⟨r.morpher_not_validator, Restriction.puzzle_hashAt nonce r,
        Restriction.memoAt nonce r⟩ : RestrictionHint))) := by
  induction rs with
  | nil => rfl
  | cons r rs ih =>
    simp only [List.map_cons, clvmList, parseRestrictionHints]
    rw [restrictionHint_roundtrip, ih]

theorem hints_map_unknown (nonce : Int) (rs : List Restriction) :
    (rs.map (fun r =>
      (⟨r.morpher_not_validator, Restriction.puzzle_hashAt nonce r,
        Restriction.memoAt nonce r⟩ : RestrictionHint))).map Restriction.unknown
    = rs.map (Restriction.unknownify nonce) := by
  rw [List.map_map]
  rfl

mutual
theorem memo_roundtrip_pwr :
    ∀ t : PuzzleWithRestrictions, PuzzleWithRestrictions.wfB t = true →
      PuzzleWithRestrictions.from_memo (PuzzleWithRestrictions.memo t)
        = .ok (PuzzleWithRestrictions.unknownify t)
  | .mk nonce rs (.unknown h), _ => by
    rw [PuzzleWithRestrictions.memo, memoBody]
    simp only [clvmList]
    rw [intToAtom_zero, PuzzleWithRestrictions.from_memo, if_pos rfl]
    try dsimp only
    rw [parseRestrictionHints_roundtrip nonce rs]
    try dsimp only
    rw [if_pos rfl]
    rw [puzzleHint_roundtrip]
    try dsimp only
    rw [atomToInt_intToAtom, hints_map_unknown]
    rfl
  | .mk nonce rs (.known kp), _ => by
    rw [PuzzleWithRestrictions.memo, memoBody]
    simp only [clvmList]
    rw [intToAtom_zero, PuzzleWithRestrictions.from_memo, if_pos rfl]
    try dsimp only
    rw [parseRestrictionHints_roundtrip nonce rs]
    try dsimp only
    rw [if_pos rfl]
    rw [puzzleHint_roundtrip]
    try dsimp only
    rw [atomToInt_intToAtom, hints_map_unknown]
    rfl
  | .mk nonce rs (.mofN (.mk m members)), hw => by
    rw [PuzzleWithRestrictions.wfB, Puzzle.wfB, Bool.and_eq_true] at hw
    rw [PuzzleWithRestrictions.memo, memoBody, MofNHint.to_program]
    simp only [clvmList]
    rw [intToAtom_one, PuzzleWithRestrictions.from_memo, if_pos rfl]
    try dsimp only
    rw [parseRestrictionHints_roundtrip nonce rs]
    try dsimp only
    rw [if_neg (by simp)]
    try dsimp only
    rw [memo_roundtrip_list members hw.2]
    try dsimp only
    rw [atomToInt_intToAtom]
    rw [MofN.post_init, if_neg (by
      simp only [MofN.nodes, unknownify_hashes_list members, ne_eq, Decidable.not_not]
      exact of_decide_eq_true hw.1)]
    try dsimp only
    rw [atomToInt_intToAtom, hints_map_unknown]
    rfl

theorem memo_roundtrip_list :
    ∀ l : PWRList, PWRList.wfB l = true →
      PuzzleWithRestrictions.from_memoList (clvmList (PWRList.memos l))
        = .ok (PWRList.unknownify l)
  | .nil, _ => rfl
  | .cons p ps, hw => by
    rw [PWRList.wfB, Bool.and_eq_true] at hw
    simp only [PWRList.memos, clvmList, PuzzleWithRestrictions.from_memoList]
    rw [memo_roundtrip_pwr p hw.1]
    try dsimp only
    rw [memo_roundtrip_list ps hw.2]
    rfl
end

/-- C1: for every tree built entirely from Known leaves (and satisfying the
duplicate-member construction invariant that every Python-built `MofN`
satisfies), `from_memo (memo t)` succeeds and returns the hint-only image of
`t`: its `puzzle_hash` equals the original's, and every leaf — the inner
puzzle at every node and every restriction — is Unknown. -/
theorem c1_memo_roundtrip (t : PuzzleWithRestrictions)
    (hknown : PuzzleWithRestrictions.allKnownB t = true)
    (hwf : PuzzleWithRestrictions.wfB t = true) :
    PuzzleWithRestrictions.from_memo (PuzzleWithRestrictions.memo t)
      = .ok (PuzzleWithRestrictions.unknownify t) ∧
    (PuzzleWithRestrictions.unknownify t).puzzle_hash = t.puzzle_hash ∧
    (PuzzleWithRestrictions.unknownify t).allUnknownB = true :=
  ⟨memo_roundtrip_pwr t hwf, unknownify_hash_pwr t, unknownify_allUnknown_pwr t⟩

/-- C1 witness: the round-trip at a concrete all-Known tree (one Known
restriction, a nested 2-of-2 of Known members). -/
theorem c1_witness :
    PuzzleWithRestrictions.from_memo (PuzzleWithRestrictions.memo wTree1)
      = .ok (PuzzleWithRestrictions.unknownify wTree1) ∧
    (PuzzleWithRestrictions.unknownify wTree1).puzzle_hash = wTree1.puzzle_hash ∧
    (PuzzleWithRestrictions.unknownify wTree1).allUnknownB = true :=
  c1_memo_roundtrip wTree1 rfl (by decide)
